import Mathlib

/-!
Verification of the Mailman queue switchboard
(src/Mailman/Queue/Switchboard.py): sharding bounds, the queue-directory
state machine (enqueue, dequeue, finish, recover_backup_files), the on-disk
codec for (message, metadata) items, and the files() listing with its
FIFO sort and DELTA tie-breaking.
-/

/-- 20 bytes of all bits set, the maximum sha.digest() value (line 50 of
Switchboard.py). -/
def shamax : ℕ := 0xffffffffffffffffffffffffffffffffffffffff

/-- Small increment added by files() to a sort key when two entries share the
same time (DELTA = .0001, line 58). -/
def DELTA : ℚ := 1 / 10000

/-- Flag selecting pickled messages over flat text (line 55). -/
def SAVE_MSGS_AS_PICKLES : Bool := true

/-- Modelled from the spec: config.QFILE_SCHEMA_VERSION lives in
Mailman.configuration, which is outside the given sources; the spec only
requires that a schema-version number is always stamped into the metadata.
Its concrete value is irrelevant to every property proved here. -/
def QFILE_SCHEMA_VERSION : ℚ := 3

/-- Slice bounds computed in Switchboard.__init__ (lines 70 to 75): none when
numslices = 1 (the fast track), otherwise the pair of
lower = (shamax+1)*slice/numslices and
upper = (shamax+1)*(slice+1)/numslices - 1, with Python 2 floor division.
All operands are nonnegative longs, so the divisions are Nat division; the
upper bound is carried in ℤ so that the trailing minus one is kept exactly. -/
def sliceBounds (slice numslices : ℕ) : Option (ℕ × ℤ) :=
  if numslices = 1 then none
  else some ((shamax + 1) * slice / numslices,
             (((shamax + 1) * (slice + 1) / numslices : ℕ) : ℤ) - 1)

/-- Modelled from the spec claim text, for comparison with sliceBounds: the
spec writes the upper bound of a slice as the ceiling of
(shamax+1)*(slice+1)/numslices, minus one, while the code computes the floor
minus one. The ceiling is rendered as (a + n - 1) / n in Nat division. -/
def specSliceBounds (slice numslices : ℕ) : Option (ℕ × ℤ) :=
  if numslices = 1 then none
  else some ((shamax + 1) * slice / numslices,
             ((((shamax + 1) * (slice + 1) + numslices - 1) / numslices : ℕ) : ℤ) - 1)

/-- Membership test applied by files() (line 173): lower is None, or
lower <= long(digest, 16) <= upper. -/
def inSliceRange (bounds : Option (ℕ × ℤ)) (h : ℕ) : Prop :=
  match bounds with
  | none => True
  | some (lo, hi) => lo ≤ h ∧ (h : ℤ) ≤ hi

instance (bounds : Option (ℕ × ℤ)) (h : ℕ) : Decidable (inSliceRange bounds h) :=
  match bounds with
  | none => isTrue trivial
  | some (lo, hi) => inferInstanceAs (Decidable (lo ≤ h ∧ (h : ℤ) ≤ hi))

/-- File extensions in a queue directory: .pck names a pending item, .bak an
in-flight item, .tmp the temporary write target of enqueue. -/
inductive QExt
  | pck
  | bak
  | tmp
deriving DecidableEq

/-- A queue directory, modelled as the finite set of its file names; each name
is the filebase paired with its extension. -/
abbrev Dir := Finset (String × QExt)

/-- os.rename src dst within the queue directory; an existing dst is
overwritten, as rename does on POSIX. -/
def renameFile (d : Dir) (src dst : String × QExt) : Dir := insert dst (d.erase src)

/-- Switchboard.enqueue at the directory level (lines 119 to 127): write the
temporary file, then rename it onto the final pending name. -/
def enqueueD (d : Dir) (fb : String) : Dir :=
  renameFile (insert (fb, QExt.tmp) d) (fb, QExt.tmp) (fb, QExt.pck)

/-- Switchboard.dequeue at the directory level (lines 135 to 142): open the
pending file, which raises IOError when it is absent, before any rename; on
success rename pending to in-flight. -/
def dequeueD (d : Dir) (fb : String) : Except Unit Dir :=
  if (fb, QExt.pck) ∈ d then Except.ok (renameFile d (fb, QExt.pck) (fb, QExt.bak))
  else Except.error ()

/-- The directory a dequeue call leaves behind: unchanged when open() raised,
since the failing open precedes the rename. -/
def afterDequeue (d : Dir) (fb : String) : Dir :=
  match dequeueD d fb with
  | Except.ok d2 => d2
  | Except.error _ => d

/-- Switchboard.finish (lines 152 to 157): unlink the in-flight file; an
EnvironmentError (file already absent) is logged and swallowed. The result
pairs the new directory with whether an error was logged. -/
def finishD (d : Dir) (fb : String) : Dir × Bool :=
  if (fb, QExt.bak) ∈ d then (d.erase (fb, QExt.bak), false) else (d, true)

/-- The fate of one directory entry under recover_backup_files: an in-flight
file whose filebase lies in this instance's slice is renamed to pending,
every other entry is untouched. -/
def recoverOne (p : String → Bool) (e : String × QExt) : String × QExt :=
  if p e.1 ∧ e.2 = QExt.bak then (e.1, QExt.pck) else e

/-- Switchboard.recover_backup_files (lines 183 to 190) at the directory
level: every in-flight file of the slice is renamed back to pending. The
predicate p models the digest-range filter that files() applies; the
per-file rename loop is rendered as an image because the renames of distinct
filebases are independent and a rename overwrites its destination. -/
def recoverD (p : String → Bool) (d : Dir) : Dir := d.image (recoverOne p)

/-- The storage invariant of the item lifecycle: no filebase has both a
pending and an in-flight representation at once. -/
def DirInv (d : Dir) : Prop :=
  ∀ fb : String, ¬ ((fb, QExt.pck) ∈ d ∧ (fb, QExt.bak) ∈ d)

/-- One switchboard operation on a queue directory. The enqueue step carries
the freshness of the generated filebase (received time plus sha digest,
lines 99 to 106), which the implementation assumes from hash uniqueness
rather than checks. -/
inductive DirStep (p : String → Bool) : Dir → Dir → Prop
  | enq (d : Dir) (fb : String) (hfresh : ∀ e ∈ d, e.1 ≠ fb) :
      DirStep p d (enqueueD d fb)
  | deq (d : Dir) (fb : String) (d2 : Dir) (h : dequeueD d fb = Except.ok d2) :
      DirStep p d d2
  | fin (d : Dir) (fb : String) : DirStep p d (finishD d fb).1
  | rcv (d : Dir) : DirStep p d (recoverD p d)

/-- Queue-directory states reachable from an empty directory by any sequence
of enqueue, dequeue, finish and recover operations. -/
def ReachableDir (p : String → Bool) (d : Dir) : Prop :=
  Relation.ReflTransGen (DirStep p) ∅ d

/-- A message object. Message parsing and rendering are external
collaborators (the email library): the queue treats the payload as an opaque
blob, so a message is carried by its flattened textual form, which is what
str produces and email.message_from_string parses back. -/
structure Msg where
  text : String
deriving DecidableEq

/-- Metadata values: Python strings, numbers and booleans. -/
inductive Val
  | str (s : String)
  | num (q : ℚ)
  | bool (b : Bool)
deriving DecidableEq

/-- A metadata dictionary, modelled as an association list carrying
Python-dict lookup and update semantics. -/
abbrev Meta := List (String × Val)

/-- Dictionary lookup data.get(k): the first binding wins. -/
def dget (m : Meta) (k : String) : Option Val :=
  (m.find? (fun kv => kv.1 == k)).map (fun kv => kv.2)

/-- Dictionary assignment data[k] = v: replace an existing binding in place,
otherwise append a new one. -/
def dset (m : Meta) (k : String) (v : Val) : Meta :=
  if m.any (fun kv => kv.1 == k) then
    m.map (fun kv => if kv.1 == k then (k, v) else kv)
  else m ++ [(k, v)]

/-- data.update(kws) (line 87): assign every binding of kws in order. -/
def dupdate (m : Meta) (kws : Meta) : Meta :=
  kws.foldl (fun acc kv => dset acc kv.1 kv.2) m

/-- data.setdefault(k, v) (line 105): return the existing value when the key
is present, otherwise insert and return v. -/
def dsetdefault (m : Meta) (k : String) (v : Val) : Val × Meta :=
  match dget m k with
  | some w => (w, m)
  | none => (v, dset m k v)

/-- Python truthiness of an optional metadata value: a missing key (None),
the empty string, zero and False are falsy. -/
def truthy : Option Val → Bool
  | none => false
  | some (Val.str s) => s != ""
  | some (Val.num q) => q != 0
  | some (Val.bool b) => b

/-- Model of k.startswith(chr(95)) on the volatile-use marker: whether the
first character of the key is an underscore. String.startsWith itself is
defined by well-founded byte recursion and does not reduce in the kernel,
so the model tests the head character, which is equivalent for a
one-character test string. -/
def isVolatileKey (k : String) : Bool :=
  match k.toList with
  | [] => false
  | c :: _ => c == '_'

/-- Deletion of the volatile entries (lines 112 to 114): every binding whose
key starts with an underscore is removed. -/
def stripVolatile (m : Meta) : Meta :=
  m.filter (fun kv => !(isVolatileKey kv.1))

/-- Tokens of the modelled pickle stream. cPickle is an external library;
what the switchboard relies on is that a pickle is a self-terminating byte
sequence, so that two pickles written back to back can be read back in
order. The model keeps that structure over an alphabet of numbers and
characters. -/
inductive Tok
  | nat (n : ℕ)
  | ch (c : Char)
deriving DecidableEq

/-- Self-terminating encoding of a string: its length, then its characters. -/
def encStr (s : String) : List Tok := Tok.nat s.length :: s.toList.map Tok.ch

/-- Read back exactly n characters. -/
def decChars : ℕ → List Tok → Option (List Char × List Tok)
  | 0, ts => some ([], ts)
  | n + 1, Tok.ch c :: ts => (decChars n ts).map (fun r => (c :: r.1, r.2))
  | _ + 1, _ => none

/-- Read back one encoded string. -/
def decStr : List Tok → Option (String × List Tok)
  | Tok.nat n :: ts => (decChars n ts).map (fun r => (String.mk r.1, r.2))
  | _ => none

/-- Self-terminating encoding of a metadata value. -/
def encVal : Val → List Tok
  | Val.str s => Tok.nat 0 :: encStr s
  | Val.num q => [Tok.nat 1, Tok.nat (if q < 0 then 1 else 0),
                  Tok.nat q.num.natAbs, Tok.nat q.den]
  | Val.bool b => [Tok.nat 2, Tok.nat (cond b 1 0)]

/-- Read back one metadata value. -/
def decVal : List Tok → Option (Val × List Tok)
  | Tok.nat 0 :: ts => (decStr ts).map (fun r => (Val.str r.1, r.2))
  | Tok.nat 1 :: Tok.nat sg :: Tok.nat na :: Tok.nat de :: ts =>
      some (Val.num (if sg = 1 then -(na : ℚ) / de else (na : ℚ) / de), ts)
  | Tok.nat 2 :: Tok.nat b :: ts => some (Val.bool (b == 1), ts)
  | _ => none

/-- Encoding of the bindings of a metadata dictionary, in order. -/
def encPairs : Meta → List Tok
  | [] => []
  | (k, v) :: rest => encStr k ++ encVal v ++ encPairs rest

/-- Self-describing encoding of a metadata dictionary: the number of
bindings, then the bindings. -/
def encMeta (m : Meta) : List Tok := Tok.nat m.length :: encPairs m

/-- Read back exactly n metadata bindings. -/
def decPairs : ℕ → List Tok → Option (Meta × List Tok)
  | 0, ts => some ([], ts)
  | n + 1, ts =>
      (decStr ts).bind fun rk =>
        (decVal rk.2).bind fun rv =>
          (decPairs n rv.2).map fun rm => ((rk.1, rv.1) :: rm.1, rm.2)

/-- Read back one encoded metadata dictionary. -/
def decMeta : List Tok → Option (Meta × List Tok)
  | Tok.nat n :: ts => decPairs n ts
  | _ => none

/-- A picklable payload: either a Message object (protocol 1 path, line 93)
or its flattened text (protocol 0 path, line 96). -/
inductive PObj
  | msg (m : Msg)
  | str (s : String)
deriving DecidableEq

/-- Pickle of a payload. The two constructors carry distinct tags, as the
pickles of a Message instance and of a plain string differ. -/
def encPObj : PObj → List Tok
  | PObj.msg m => Tok.nat 3 :: encStr m.text
  | PObj.str s => Tok.nat 4 :: encStr s

/-- Read back one pickled payload. -/
def decPObj : List Tok → Option (PObj × List Tok)
  | Tok.nat 3 :: ts => (decStr ts).map (fun r => (PObj.msg ⟨r.1⟩, r.2))
  | Tok.nat 4 :: ts => (decStr ts).map (fun r => (PObj.str r.1, r.2))
  | _ => none

/-- Characters of a string as stream tokens, for the hash input. -/
def strToks (s : String) : List Tok := s.toList.map Tok.ch

/-- The store of live dictionary objects, indexed by reference. Python
dictionaries are mutable objects, so enqueue is modelled against an explicit
store: data = metadata.copy() allocates a fresh dictionary, and every later
mutation hits that copy, never the caller's object. -/
def readRef (st : List Meta) (r : ℕ) : Meta := st.getD r []

/-- Overwrite the dictionary named by a reference. -/
def writeRef (st : List Meta) (r : ℕ) (m : Meta) : List Meta := st.set r m

/-- The outcome of one enqueue call: the final store, the returned filebase,
the pickled payload segment, the metadata dictionary as persisted, the whole
file content, and whether protocol 0 (flat text) was selected. -/
structure EnqOut where
  store : List Meta
  filebase : String
  msgsave : List Tok
  data : Meta
  content : List Tok
  protocolZero : Bool
deriving DecidableEq

/-- Switchboard.enqueue (lines 82 to 128). The parameters shaHex and reprV
model the external sha library and Python repr; their outputs only feed the
generated filebase. The store models dictionary objects: the copy on line 86
allocates, and lines 87, 105, 110, 112 to 114 and 117 mutate the copy. The
content is the payload pickle followed by the metadata pickle, exactly as
lines 121 to 122 write them. -/
def enqueueImp (shaHex : List Tok → String) (reprV : Val → String)
    (st0 : List Meta) (mdRef : ℕ) (kws : Meta) (msg : Msg) (now : ℚ) : EnqOut :=
  let dataRef := st0.length
  let st1 := st0 ++ [readRef st0 mdRef]
  let st2 := writeRef st1 dataRef (dupdate (readRef st1 dataRef) kws)
  let listname := (dget (readRef st2 dataRef) "listname").getD (Val.str "--nolist--")
  let pm := if SAVE_MSGS_AS_PICKLES && !(truthy (dget (readRef st2 dataRef) "_plaintext"))
    then (false, encPObj (PObj.msg msg))
    else (true, encPObj (PObj.str msg.text))
  let hashfood := pm.2 ++ encVal listname ++ strToks (reprV (Val.num now))
  let rv := dsetdefault (readRef st2 dataRef) "received_time" (Val.num now)
  let st3 := writeRef st2 dataRef rv.2
  let filebase := reprV rv.1 ++ "+" ++ shaHex hashfood
  let st4 := writeRef st3 dataRef
    (dset (readRef st3 dataRef) "version" (Val.num QFILE_SCHEMA_VERSION))
  let st5 := writeRef st4 dataRef (stripVolatile (readRef st4 dataRef))
  let st6 := writeRef st5 dataRef
    (dset (readRef st5 dataRef) "_parsemsg" (Val.bool pm.1))
  let data := readRef st6 dataRef
  { store := st6, filebase := filebase, msgsave := pm.2, data := data,
    content := pm.2 ++ encMeta data, protocolZero := pm.1 }

/-- Enqueue against a one-dictionary store holding only the caller's
metadata dictionary. -/
def enqueuePure (shaHex : List Tok → String) (reprV : Val → String)
    (md : Meta) (kws : Meta) (msg : Msg) (now : ℚ) : EnqOut :=
  enqueueImp shaHex reprV [md] 0 kws msg now

/-- The codec half of Switchboard.dequeue (lines 143 to 150): load the
payload pickle, then the metadata pickle, in that order; when the
_parsemsg flag is truthy the loaded text is parsed back into a Message
(email.message_from_string fails on anything that is not a string). Any
load failure is surfaced, never retried. -/
def dequeueData (content : List Tok) : Except Unit (PObj × Meta) :=
  match decPObj content with
  | none => Except.error ()
  | some (p, rest) =>
    match decMeta rest with
    | none => Except.error ()
    | some (d, _) =>
      if truthy (dget d "_parsemsg") then
        match p with
        | PObj.str s => Except.ok (PObj.msg ⟨s⟩, d)
        | PObj.msg _ => Except.error ()
      else Except.ok (p, d)

/-- Modelled from the spec claim text, for comparison with the metadata that
dequeueData actually returns: the original metadata after private-prefixed
keys are stripped and the schema-version entry is added. -/
def claimedRoundtripMeta (md : Meta) : Meta :=
  dset (stripVolatile md) "version" (Val.num QFILE_SCHEMA_VERSION)

/-- os.path.splitext for the names a queue directory holds (none of which
starts with a dot): split at the last dot, keeping the dot on the
extension; a name without a dot has the empty extension. -/
def splitext (f : String) : String × String :=
  match f.toList.reverse.span (fun c => c != '.') with
  | (_, []) => (f, "")
  | (extRev, _ :: baseRev) =>
      if baseRev = [] then (f, "")
      else (String.mk baseRev.reverse, String.mk ('.' :: extRev.reverse))

/-- Model of str.split on the plus separator, by structural recursion over
the characters (String.splitOn itself is defined by well-founded position
recursion and does not reduce in the kernel). An input with no separator
yields one part, and n separators yield n+1 parts, as in Python. -/
def splitOnChar (c : Char) : List Char → List (List Char)
  | [] => [[]]
  | x :: xs =>
    match splitOnChar c xs with
    | [] => if x == c then [[], []] else [[x]]
    | y :: ys => if x == c then [] :: y :: ys else (x :: y) :: ys

/-- filebase.split of line 169, as a list of strings. -/
def splitPlus (s : String) : List String :=
  (splitOnChar '+' s.toList).map (fun l => String.mk l)

/-- Numeric value of a list of decimal digit characters. -/
def digitsToNat (cs : List Char) : ℕ :=
  cs.foldl (fun a c => a * 10 + (c.toNat - 48)) 0

/-- Whether every character is a decimal digit. -/
def allDigits (cs : List Char) : Bool := cs.all (fun c => c.isDigit)

/-- Model of Python float() on the strings the queue meets: an optional
sign, then digits with an optional fractional part (at least one digit in
total), then an optional exponent; the exact rational value is returned.
Anything else, such as a word or an empty string, fails as float() does
with a ValueError. -/
def parseFloatQ (s : String) : Option ℚ :=
  let cs := s.toList
  let sgnCs : ℚ × List Char :=
    match cs with
    | '+' :: r => (1, r)
    | '-' :: r => (-1, r)
    | r => (1, r)
  let mantExp := sgnCs.2.span (fun c => c != 'e' && c != 'E')
  let ipRest := mantExp.1.span (fun c => c != '.')
  let fp : Option (List Char) :=
    match ipRest.2 with
    | [] => some []
    | _ :: r => if r.any (fun c => c == '.') then none else some r
  match fp with
  | none => none
  | some fpcs =>
    if ipRest.1 = [] && fpcs = [] then none
    else if !(allDigits ipRest.1) || !(allDigits fpcs) then none
    else
      let mval : ℚ := (digitsToNat ipRest.1 : ℚ) +
        (digitsToNat fpcs : ℚ) / ((10 : ℚ) ^ fpcs.length)
      let expv : Option ℤ :=
        match mantExp.2 with
        | [] => some 0
        | _ :: ecs =>
          let se : ℤ × List Char :=
            match ecs with
            | '+' :: r => (1, r)
            | '-' :: r => (-1, r)
            | r => (1, r)
          if se.2 = [] || !(allDigits se.2) then none
          else some (se.1 * (digitsToNat se.2 : ℤ))
      match expv with
      | none => none
      | some e => some (sgnCs.1 * mval * (10 : ℚ) ^ e)

/-- Value of one hexadecimal digit character. -/
def hexDigit (c : Char) : Option ℕ :=
  if c.isDigit then some (c.toNat - 48)
  else if 'a' ≤ c ∧ c ≤ 'f' then some (c.toNat - 87)
  else if 'A' ≤ c ∧ c ≤ 'F' then some (c.toNat - 55)
  else none

/-- Model of Python long(s, 16) on hex digests: the value of a nonempty
string of hexadecimal digits, a ValueError otherwise. -/
def parseHex (s : String) : Option ℕ :=
  if s = "" then none
  else s.toList.foldl
    (fun acc c => acc.bind fun a => (hexDigit c).map fun d => a * 16 + d)
    (some 0)

/-- The while loop of files() (lines 175 to 176): bump a colliding key by
DELTA until it is free. The key grows strictly at every bump, so it can
collide with each existing key at most once; fuel one past the number of
keys is therefore always enough. -/
def bumpKey (keys : List ℚ) : ℚ → ℕ → ℚ
  | k, 0 => k
  | k, fuel + 1 => if k ∈ keys then bumpKey keys (k + DELTA) fuel else k

/-- times[key] = filebase after the bump loop (line 177): dictionary
insertion, with the fresh bumped key appended. -/
def timesInsert (times : List (ℚ × String)) (k : ℚ) (fb : String) :
    List (ℚ × String) :=
  times ++ [(bumpKey (times.map Prod.fst) k (times.length + 1), fb)]

/-- Insertion into an ascending list of keys. -/
def insertSorted (x : ℚ) : List ℚ → List ℚ
  | [] => [x]
  | y :: ys => if x ≤ y then x :: y :: ys else y :: insertSorted x ys

/-- keys.sort() (line 180): ascending sort of the key list. -/
def sortQ (l : List ℚ) : List ℚ := l.foldr insertSorted []

/-- times[k] dictionary lookup during the final comprehension (line 181). -/
def tlookup (times : List (ℚ × String)) (k : ℚ) : String :=
  ((times.find? (fun kv => kv.1 == k)).map Prod.snd).getD ""

/-- The FIFO-sort tail of files() (lines 178 to 181): sort the keys of the
times dictionary and list the filebases in that order. -/
def listTail (times : List (ℚ × String)) : List String :=
  (sortQ (times.map Prod.fst)).map (tlookup times)

/-- The ordering stage of files(): build the times dictionary from already
parsed (time, filebase) pairs in listing order, then sort. -/
def orderStage (items : List (ℚ × String)) : List String :=
  listTail (items.foldl (fun ts kf => timesInsert ts kf.1 kf.2) [])

/-- One iteration of the files() loop (lines 163 to 177) over one directory
entry. Entries with a different extension are skipped (this is the only
filtering, line 167); the filebase is then split on the plus sign, a shape
other than two parts raising ValueError; under slicing the digest is parsed
as hex (ValueError when malformed) and out-of-range entries are skipped;
finally the time part is parsed by float() (ValueError when malformed) and
the entry is inserted with tie-breaking. -/
def filesStep (extension : String) (bounds : Option (ℕ × ℤ)) :
    Except Unit (List (ℚ × String)) → String → Except Unit (List (ℚ × String))
  | Except.error e, _ => Except.error e
  | Except.ok times, f =>
    let be := splitext f
    if be.2 != extension then Except.ok times
    else
      match splitPlus be.1 with
      | [whenS, digest] =>
        match bounds with
        | none =>
          match parseFloatQ whenS with
          | none => Except.error ()
          | some k => Except.ok (timesInsert times k be.1)
        | some (lo, hi) =>
          match parseHex digest with
          | none => Except.error ()
          | some dg =>
            if lo ≤ dg ∧ (dg : ℤ) ≤ hi then
              match parseFloatQ whenS with
              | none => Except.error ()
              | some k => Except.ok (timesInsert times k be.1)
            else Except.ok times
      | _ => Except.error ()

/-- Switchboard.files (lines 159 to 181) over a directory listing: fold the
per-entry loop, then sort; a ValueError raised inside the loop aborts the
whole call. -/
def filesE (entries : List String) (extension : String)
    (bounds : Option (ℕ × ℤ)) : Except Unit (List String) :=
  (entries.foldl (filesStep extension bounds) (Except.ok [])).map listTail

/-- The metadata of a dequeue result, the empty dictionary when it failed. -/
def resultMeta (r : Except Unit (PObj × Meta)) : Meta :=
  ((r.toOption).map Prod.snd).getD []

/-- Membership in the directory an enqueue leaves behind. -/
theorem mem_enqueueD (x : String × QExt) (d : Dir) (fb : String) :
    x ∈ enqueueD d fb ↔ x = (fb, QExt.pck) ∨ (x ∈ d ∧ x ≠ (fb, QExt.tmp)) := by
  simp only [enqueueD, renameFile, Finset.mem_insert, Finset.mem_erase]
  tauto

/-- Enqueue of a fresh filebase preserves the storage invariant. -/
theorem dirInv_enqueueD (d : Dir) (fb : String) (hfresh : ∀ e ∈ d, e.1 ≠ fb)
    (h : DirInv d) : DirInv (enqueueD d fb) := by
  intro g hg
  rcases hg with ⟨hp, hb⟩
  rw [mem_enqueueD] at hp hb
  rcases hb with hb | ⟨hb, _⟩
  · exact absurd (congrArg Prod.snd hb) (by simp)
  rcases hp with hp | ⟨hp, _⟩
  · exact hfresh _ hb (by simpa using congrArg Prod.fst hp)
  · exact h g ⟨hp, hb⟩

/-- A successful dequeue preserves the storage invariant. -/
theorem dirInv_dequeueD (d : Dir) (fb : String) (d2 : Dir)
    (h2 : dequeueD d fb = Except.ok d2) (h : DirInv d) : DirInv d2 := by
  by_cases hmem : (fb, QExt.pck) ∈ d
  · rw [dequeueD, if_pos hmem] at h2
    obtain rfl : renameFile d (fb, QExt.pck) (fb, QExt.bak) = d2 := by
      injection h2
    intro g hg
    rcases hg with ⟨hp, hb⟩
    simp only [renameFile, Finset.mem_insert, Finset.mem_erase] at hp hb
    rcases hp with hp | ⟨hp, hp2⟩
    · exact absurd (congrArg Prod.snd hp) (by simp)
    rcases hb with hb | ⟨hb, hb2⟩
    · exact hp (by simpa using congrArg Prod.fst hb)
    · exact h g ⟨hp2, hb2⟩
  · rw [dequeueD, if_neg hmem] at h2
    exact absurd h2 (by simp)

/-- The invariant restricts to any smaller directory. -/
theorem dirInv_subset (d d2 : Dir) (hsub : d2 ⊆ d) (h : DirInv d) : DirInv d2 :=
  fun g hg => h g ⟨hsub hg.1, hsub hg.2⟩

/-- Finish preserves the storage invariant. -/
theorem dirInv_finishD (d : Dir) (fb : String) (h : DirInv d) :
    DirInv (finishD d fb).1 := by
  apply dirInv_subset d _ _ h
  rw [finishD]
  split
  · exact Finset.erase_subset _ _
  · exact fun x hx => hx

/-- Recovery preserves the storage invariant. -/
theorem dirInv_recoverD (p : String → Bool) (d : Dir) (h : DirInv d) :
    DirInv (recoverD p d) := by
  intro g hg
  rcases hg with ⟨hp, hb⟩
  simp only [recoverD, Finset.mem_image] at hp hb
  obtain ⟨eb, hebd, heb⟩ := hb
  have hb2 : eb = (g, QExt.bak) ∧ ¬ (p g = true) := by
    rw [recoverOne] at heb
    split at heb
    · exact absurd (congrArg Prod.snd heb) (by simp)
    · rename_i hcond
      refine ⟨heb, fun hpg => hcond ?_⟩
      rw [heb]
      exact ⟨hpg, rfl⟩
  obtain ⟨ep, hepd, hep⟩ := hp
  rw [recoverOne] at hep
  split at hep
  · rename_i hcond
    exact hb2.2 (by rw [← (show ep.1 = g from by simpa using congrArg Prod.fst hep)]; exact hcond.1)
  · apply h g
    refine ⟨?_, ?_⟩
    · rw [← hep]; exact hepd
    · rw [← hb2.1]; exact hebd

/-- C1: every queue-directory state reachable from an empty directory by any
sequence of enqueue, dequeue, finish and recover operations satisfies the
invariant that each filebase names at most one of the pending (.pck) and
in-flight (.bak) representations, never both; each of the four operations
(enqueue's write-to-temporary-then-rename, dequeue's pending-to-in-flight
rename, finish's delete, recover's in-flight-to-pending rename) preserves
it. -/
theorem reachable_dir_invariant (p : String → Bool) (d : Dir)
    (h : ReachableDir p d) : DirInv d := by
  rw [ReachableDir] at h
  induction h with
  | refl => intro g hg; simp at hg
  | tail _ hstep ih =>
    cases hstep with
    | enq fb hfresh => exact dirInv_enqueueD _ fb hfresh ih
    | deq fb d2 hd => exact dirInv_dequeueD _ fb _ hd ih
    | fin fb => exact dirInv_finishD _ fb ih
    | rcv => exact dirInv_recoverD p _ ih

/-- Witness for C1: the invariant holds of the concrete state reached by
enqueueing filebase 2+d and then dequeueing it. -/
theorem reachable_dir_invariant_witness :
    DirInv (insert ("2+d", QExt.bak) ((enqueueD ∅ "2+d").erase ("2+d", QExt.pck))) := by
  apply reachable_dir_invariant (fun _ => true)
  have s1 : DirStep (fun _ => true) ∅ (enqueueD ∅ "2+d") :=
    DirStep.enq ∅ "2+d" (by intro e he; simp at he)
  have s2 : DirStep (fun _ => true) (enqueueD ∅ "2+d")
      (insert ("2+d", QExt.bak) ((enqueueD ∅ "2+d").erase ("2+d", QExt.pck))) := by
    apply DirStep.deq _ "2+d"
    rw [dequeueD, if_pos (by decide)]
    rfl
  exact Relation.ReflTransGen.tail (Relation.ReflTransGen.single s1) s2

/-- Applying the per-file recovery map twice is the same as applying it
once. -/
theorem recoverOne_idem (p : String → Bool) (e : String × QExt) :
    recoverOne p (recoverOne p e) = recoverOne p e := by
  rcases e with ⟨fb, ext⟩
  cases ext <;> by_cases hp : p fb = true <;> simp [recoverOne, hp]

/-- C4: recover renames every in-flight file of the instance's shard back to
pending, removes every in-flight file of the shard, never increases the
number of files (so a single crashed item yields a single pending item, not
two), and is idempotent: a second consecutive recover changes nothing. -/
theorem recover_restores_and_idempotent (p : String → Bool) (d : Dir) :
    (∀ fb : String, p fb = true → (fb, QExt.bak) ∈ d → (fb, QExt.pck) ∈ recoverD p d)
    ∧ (∀ fb : String, p fb = true → (fb, QExt.bak) ∉ recoverD p d)
    ∧ (recoverD p d).card ≤ d.card
    ∧ recoverD p (recoverD p d) = recoverD p d := by
  refine ⟨?_, ?_, Finset.card_image_le, ?_⟩
  · intro fb hpfb hmem
    have h1 : recoverOne p (fb, QExt.bak) = (fb, QExt.pck) := by
      rw [recoverOne, if_pos ⟨hpfb, rfl⟩]
    rw [recoverD, ← h1]
    exact Finset.mem_image_of_mem _ hmem
  · intro fb hpfb hmem
    simp only [recoverD, Finset.mem_image] at hmem
    obtain ⟨e, _, he⟩ := hmem
    rw [recoverOne] at he
    split at he
    · exact absurd (congrArg Prod.snd he) (by simp)
    · rename_i hcond
      apply hcond
      rw [he]
      exact ⟨hpfb, rfl⟩
  · rw [recoverD, recoverD, Finset.image_image]
    exact Finset.image_congr (fun e _ => recoverOne_idem p e)

/-- Witness for C4: after a simulated crash leaving the single in-flight file
1+a.bak, one recover yields exactly the single pending file 1+a.pck, and a
second recover is a no-op. -/
theorem recover_restores_and_idempotent_witness :
    (("1+a", QExt.pck) ∈ recoverD (fun _ => true) {("1+a", QExt.bak)})
    ∧ ("1+a", QExt.bak) ∉ recoverD (fun _ => true) {("1+a", QExt.bak)}
    ∧ recoverD (fun _ => true) {("1+a", QExt.bak)} = {("1+a", QExt.pck)}
    ∧ recoverD (fun _ => true) (recoverD (fun _ => true) {("1+a", QExt.bak)})
        = recoverD (fun _ => true) {("1+a", QExt.bak)} := by
  have t := recover_restores_and_idempotent (fun _ => true) {("1+a", QExt.bak)}
  exact ⟨t.1 "1+a" rfl (by decide), t.2.1 "1+a" rfl, by decide, t.2.2.2⟩

/-- C7: dequeue of a filebase with no pending file fails at once with the
not-found error that open() raises, and the failure path performs no rename:
the directory is left unchanged. -/
theorem dequeue_missing_not_found (d : Dir) (fb : String)
    (h : (fb, QExt.pck) ∉ d) :
    dequeueD d fb = Except.error () ∧ afterDequeue d fb = d := by
  have h1 : dequeueD d fb = Except.error () := by rw [dequeueD, if_neg h]
  exact ⟨h1, by rw [afterDequeue, h1]⟩

/-- Witness for C7: dequeueing from the empty directory. -/
theorem dequeue_missing_not_found_witness :
    dequeueD ∅ "x" = Except.error () ∧ afterDequeue ∅ "x" = ∅ :=
  dequeue_missing_not_found ∅ "x" (by decide)

/-- C8: finish always deletes exactly the in-flight representation, and a
failing delete (the file is already gone) is swallowed: finish still returns
normally, merely recording that the error was logged, with the directory
unchanged. -/
theorem finish_swallows_failure (d : Dir) (fb : String) :
    (finishD d fb).1 = d.erase (fb, QExt.bak)
    ∧ ((fb, QExt.bak) ∉ d → finishD d fb = (d, true)) := by
  constructor
  · by_cases hm : (fb, QExt.bak) ∈ d
    · rw [finishD, if_pos hm]
    · rw [finishD, if_neg hm]
      exact (Finset.erase_eq_of_not_mem hm).symm
  · intro hm
    rw [finishD, if_neg hm]

/-- Witness for C8: finishing a filebase whose in-flight file is absent. -/
theorem finish_swallows_failure_witness :
    (finishD ∅ "x").1 = (∅ : Dir).erase ("x", QExt.bak)
    ∧ finishD ∅ "x" = (∅, true) :=
  ⟨(finish_swallows_failure ∅ "x").1, (finish_swallows_failure ∅ "x").2 (by decide)⟩

/-- A number is below the next multiple of b after a / b * b. -/
theorem lt_div_succ_mul (a b : ℕ) (hb : 0 < b) : a < (a / b + 1) * b := by
  have h1 := Nat.div_add_mod a b
  have h2 := Nat.mod_lt a hb
  have h3 : (a / b + 1) * b = b * (a / b) + b := by ring
  omega

/-- Membership in a slice, for at least two slices, in Nat form. -/
theorem inSliceRange_iff (s N hv : ℕ) (hN1 : N ≠ 1) :
    inSliceRange (sliceBounds s N) hv ↔
      ((shamax + 1) * s / N ≤ hv ∧ hv + 1 ≤ (shamax + 1) * (s + 1) / N) := by
  rw [sliceBounds, if_neg hN1]
  show ((shamax + 1) * s / N ≤ hv ∧
      (hv : ℤ) ≤ (((shamax + 1) * (s + 1) / N : ℕ) : ℤ) - 1) ↔ _
  omega

/-- C2 (amended to the floor-based upper bound the constructor computes):
for every slice count N >= 1 and every hash value in the digest space
[0, shamax], exactly one slice index s < N has the value inside its
inclusive range; in particular for N = 1 the fast path with no bounds
accepts every hash. -/
theorem slice_ranges_partition (N : ℕ) (hN : 1 ≤ N) (hv : ℕ)
    (hh : hv ≤ shamax) :
    ∃! s : ℕ, s < N ∧ inSliceRange (sliceBounds s N) hv := by
  by_cases hN1 : N = 1
  · subst hN1
    refine ⟨0, ⟨Nat.one_pos, ?_⟩, ?_⟩
    · rw [sliceBounds, if_pos rfl]; trivial
    · intro s hs
      exact Nat.lt_one_iff.mp hs.1
  · have hNpos : 0 < N := by omega
    have hK : 0 < shamax + 1 := Nat.succ_pos _
    have hprodpos : 0 < N * (hv + 1) := Nat.mul_pos hNpos (Nat.succ_pos hv)
    have hs0N : (N * (hv + 1) - 1) / (shamax + 1) < N := by
      apply Nat.div_lt_of_lt_mul
      have h1 : N * (hv + 1) ≤ N * (shamax + 1) :=
        Nat.mul_le_mul_left N (by omega)
      have h2 : N * (shamax + 1) = (shamax + 1) * N := mul_comm _ _
      omega
    have hlow : (shamax + 1) * ((N * (hv + 1) - 1) / (shamax + 1)) / N ≤ hv := by
      have h1 : (shamax + 1) * ((N * (hv + 1) - 1) / (shamax + 1))
          ≤ N * (hv + 1) - 1 := by
        rw [mul_comm]
        exact Nat.div_mul_le_self _ _
      have h2 : (shamax + 1) * ((N * (hv + 1) - 1) / (shamax + 1))
          < N * (hv + 1) := by omega
      have h3 : (shamax + 1) * ((N * (hv + 1) - 1) / (shamax + 1)) / N < hv + 1 :=
        Nat.div_lt_of_lt_mul h2
      omega
    have hup : hv + 1 ≤ (shamax + 1) * ((N * (hv + 1) - 1) / (shamax + 1) + 1) / N := by
      rw [Nat.le_div_iff_mul_le hNpos]
      have h4 : N * (hv + 1) - 1 < ((N * (hv + 1) - 1) / (shamax + 1) + 1) * (shamax + 1) :=
        lt_div_succ_mul _ _ hK
      have h5 : N * (hv + 1) ≤ ((N * (hv + 1) - 1) / (shamax + 1) + 1) * (shamax + 1) := by
        omega
      calc (hv + 1) * N = N * (hv + 1) := mul_comm _ _
        _ ≤ ((N * (hv + 1) - 1) / (shamax + 1) + 1) * (shamax + 1) := h5
        _ = (shamax + 1) * ((N * (hv + 1) - 1) / (shamax + 1) + 1) := mul_comm _ _
    have huniq : ∀ s t : ℕ,
        ((shamax + 1) * s / N ≤ hv ∧ hv + 1 ≤ (shamax + 1) * (s + 1) / N) →
        ((shamax + 1) * t / N ≤ hv ∧ hv + 1 ≤ (shamax + 1) * (t + 1) / N) →
        s < t → False := by
      intro s t hs ht hlt
      have h1 : (shamax + 1) * (s + 1) ≤ (shamax + 1) * t :=
        Nat.mul_le_mul_left _ (by omega)
      have h2 : (shamax + 1) * (s + 1) / N ≤ (shamax + 1) * t / N :=
        Nat.div_le_div_right h1
      omega
    refine ⟨(N * (hv + 1) - 1) / (shamax + 1),
      ⟨hs0N, (inSliceRange_iff _ _ _ hN1).mpr ⟨hlow, hup⟩⟩, ?_⟩
    intro s hs
    have hsm := (inSliceRange_iff _ _ _ hN1).mp hs.2
    rcases lt_trichotomy s ((N * (hv + 1) - 1) / (shamax + 1)) with hlt | heq | hgt
    · exact (huniq s _ hsm ⟨hlow, hup⟩ hlt).elim
    · exact heq
    · exact (huniq _ s ⟨hlow, hup⟩ hsm hgt).elim

/-- Witness for C2: with three slices, hash value 5 lies in exactly one
slice's range. -/
theorem slice_ranges_partition_witness :
    1 ≤ 3 ∧ 5 ≤ shamax ∧ ∃! s : ℕ, s < 3 ∧ inSliceRange (sliceBounds s 3) 5 :=
  ⟨by omega, by decide, slice_ranges_partition 3 (by omega) 5 (by decide)⟩

/-- Counterexample for C2 as stated: the spec writes the upper bound of a
slice with a ceiling, and under that formula the slice ranges do not
partition the digest space: for three slices, the hash value
(shamax + 1) / 3 lies inside the ranges of both slice 0 and slice 1, so no
unique covering slice exists. -/
theorem slice_ranges_spec_formula_overlap :
    ¬ (∃! s : ℕ, s < 3 ∧ inSliceRange (specSliceBounds s 3) ((shamax + 1) / 3)) := by
  rintro ⟨s, _, huniq⟩
  have h0 : (0 : ℕ) = s := huniq 0 ⟨by omega, by decide⟩
  have h1 : (1 : ℕ) = s := huniq 1 ⟨by omega, by decide⟩
  omega

/-- Rebuilding a string from its character list is the identity. -/
theorem stringMk_toList (s : String) : String.mk s.toList = s := rfl

/-- Reading back an encoded character block consumes exactly it. -/
theorem decChars_enc (cs : List Char) (r : List Tok) :
    decChars cs.length (cs.map Tok.ch ++ r) = some (cs, r) := by
  induction cs with
  | nil => rfl
  | cons c cs ih => simp [decChars, ih]

/-- Reading back an encoded string consumes exactly it. -/
theorem decStr_encStr (s : String) (r : List Tok) :
    decStr (encStr s ++ r) = some (s, r) := by
  have h1 : s.length = s.toList.length := rfl
  simp only [encStr, List.cons_append, decStr, h1, decChars_enc, Option.map_some']
  rw [stringMk_toList]

/-- The sign-magnitude encoding of a rational restores it. -/
theorem rat_sign_magnitude (q : ℚ) :
    (if q < 0 then -(q.num.natAbs : ℚ) / q.den
     else (q.num.natAbs : ℚ) / q.den) = q := by
  by_cases hq : q < 0
  · rw [if_pos hq]
    have h1 : ((q.num.natAbs : ℤ) : ℚ) = -(q.num : ℚ) := by
      rw [Int.ofNat_natAbs_of_nonpos (le_of_lt (Rat.num_neg.mpr hq))]
      push_cast
      ring
    have h2 : ((q.num.natAbs : ℕ) : ℚ) = ((q.num.natAbs : ℤ) : ℚ) :=
      (Int.cast_natCast q.num.natAbs).symm
    rw [h2, h1, neg_neg, Rat.num_div_den]
  · rw [if_neg hq]
    have h1 : ((q.num.natAbs : ℤ) : ℚ) = (q.num : ℚ) := by
      rw [Int.natAbs_of_nonneg (Rat.num_nonneg.mpr (not_lt.mp hq))]
    have h2 : ((q.num.natAbs : ℕ) : ℚ) = ((q.num.natAbs : ℤ) : ℚ) :=
      (Int.cast_natCast q.num.natAbs).symm
    rw [h2, h1, Rat.num_div_den]

/-- Reading back an encoded metadata value consumes exactly it. -/
theorem decVal_encVal (v : Val) (r : List Tok) :
    decVal (encVal v ++ r) = some (v, r) := by
  cases v with
  | str s => simp [encVal, decVal, decStr_encStr]
  | num q => simp [encVal, decVal, rat_sign_magnitude]
  | bool b => cases b <;> simp [encVal, decVal]

/-- Reading back an encoded run of bindings consumes exactly it. -/
theorem decPairs_encPairs (m : Meta) (r : List Tok) :
    decPairs m.length (encPairs m ++ r) = some (m, r) := by
  induction m generalizing r with
  | nil => rfl
  | cons kv rest ih =>
    rcases kv with ⟨k, v⟩
    simp [encPairs, decPairs, List.append_assoc, decStr_encStr, decVal_encVal, ih]

/-- Reading back an encoded metadata dictionary consumes exactly it. -/
theorem decMeta_encMeta (m : Meta) (r : List Tok) :
    decMeta (encMeta m ++ r) = some (m, r) := by
  simp [encMeta, decMeta, decPairs_encPairs]

/-- Reading back an encoded metadata dictionary with nothing after it. -/
theorem decMeta_encMeta_nil (m : Meta) : decMeta (encMeta m) = some (m, []) := by
  have h := decMeta_encMeta m []
  simpa using h

/-- Reading back a pickled payload consumes exactly it. -/
theorem decPObj_encPObj (p : PObj) (r : List Tok) :
    decPObj (encPObj p ++ r) = some (p, r) := by
  cases p with
  | msg m => simp [encPObj, decPObj, decStr_encStr]
  | str s => simp [encPObj, decPObj, decStr_encStr]

/-- Replacing a present key makes it the value found. -/
theorem find?_map_replace (m : Meta) (k : String) (v : Val)
    (hany : m.any (fun kv => kv.1 == k) = true) :
    (m.map (fun kv => if kv.1 == k then (k, v) else kv)).find?
      (fun kv => kv.1 == k) = some (k, v) := by
  induction m with
  | nil => simp at hany
  | cons kv rest ih =>
    by_cases hk : (kv.1 == k) = true
    · simp only [List.map_cons, if_pos hk]
      rw [List.find?_cons_of_pos _ (by simp)]
    · simp only [List.map_cons, if_neg hk]
      rw [List.find?_cons_of_neg _ (by simpa using hk)]
      apply ih
      simp only [List.any_cons, hk, Bool.false_or] at hany
      exact hany

/-- Assignment then lookup of the same key yields the assigned value. -/
theorem dget_dset_self (m : Meta) (k : String) (v : Val) :
    dget (dset m k v) k = some v := by
  rw [dset]
  split
  · rename_i hany
    rw [dget, find?_map_replace m k v hany]
    rfl
  · rename_i hany
    rw [dget, List.find?_append]
    have h1 : m.find? (fun kv => kv.1 == k) = none := by
      rw [List.find?_eq_none]
      intro x hx hbeq
      exact hany (List.any_eq_true.mpr ⟨x, hx, hbeq⟩)
    rw [h1]
    simp [List.find?]

/-- Unfolding a dictionary lookup one binding at a time. -/
theorem dget_cons (kv : String × Val) (rest : Meta) (k : String) :
    dget (kv :: rest) k = if kv.1 == k then some kv.2 else dget rest k := by
  cases h : kv.1 == k <;> simp [dget, List.find?_cons, h]

/-- Replacing the bindings of one key leaves other lookups alone. -/
theorem dget_map_replace_ne (m : Meta) (k k2 : String) (v : Val) (h : k2 ≠ k) :
    dget (m.map (fun kv => if kv.1 == k then (k, v) else kv)) k2 = dget m k2 := by
  have hne : (k == k2) = false := by
    rw [beq_eq_false_iff_ne]
    exact fun he => h he.symm
  induction m with
  | nil => rfl
  | cons kv rest ih =>
    by_cases hk : (kv.1 == k) = true
    · have hkv2 : (kv.1 == k2) = false := by
        rw [beq_eq_false_iff_ne]
        rw [beq_iff_eq] at hk
        rw [hk]
        exact fun he => h he.symm
      rw [List.map_cons, if_pos hk, dget_cons, dget_cons, if_neg (by simp [hne]),
          if_neg (by simp [hkv2])]
      exact ih
    · rw [List.map_cons, if_neg hk, dget_cons, dget_cons]
      by_cases hkv2 : (kv.1 == k2) = true
      · rw [if_pos hkv2, if_pos hkv2]
      · rw [if_neg hkv2, if_neg hkv2]
        exact ih

/-- Assignment does not disturb the lookup of a different key. -/
theorem dget_dset_ne (m : Meta) (k k2 : String) (v : Val) (h : k2 ≠ k) :
    dget (dset m k v) k2 = dget m k2 := by
  have hne : (k == k2) = false := by
    rw [beq_eq_false_iff_ne]
    exact fun he => h he.symm
  rw [dset]
  split
  · exact dget_map_replace_ne m k k2 v h
  · rw [dget, dget, List.find?_append]
    have h2 : List.find? (fun kv => kv.1 == k2) [(k, v)] = none := by
      simp [List.find?, hne]
    rw [h2, Option.or_none]

/-- Stripping volatile keys does not disturb a non-underscore lookup. -/
theorem dget_strip_not (m : Meta) (k : String) (h : isVolatileKey k = false) :
    dget (stripVolatile m) k = dget m k := by
  induction m with
  | nil => rfl
  | cons kv rest ih =>
    rw [stripVolatile, List.filter_cons]
    by_cases hkv : (isVolatileKey kv.1) = true
    · have hbeq : (kv.1 == k) = false := by
        rw [beq_eq_false_iff_ne]
        intro he
        rw [he, h] at hkv
        exact Bool.noConfusion hkv
      rw [if_neg (by simp [hkv]), dget_cons, if_neg (by simp [hbeq])]
      exact ih
    · rw [if_pos (by simp [hkv]), dget_cons, dget_cons]
      by_cases hbeq : (kv.1 == k) = true
      · rw [if_pos hbeq, if_pos hbeq]
      · rw [if_neg hbeq, if_neg hbeq]
        exact ih

/-- Stripping volatile keys removes every underscore-prefixed binding. -/
theorem dget_strip_underscore (m : Meta) (k : String) (h : isVolatileKey k = true) :
    dget (stripVolatile m) k = none := by
  rw [dget]
  have h1 : (stripVolatile m).find? (fun kv => kv.1 == k) = none := by
    rw [List.find?_eq_none]
    intro x hx hbeq
    rw [stripVolatile, List.mem_filter] at hx
    rw [beq_iff_eq] at hbeq
    rw [hbeq] at hx
    simp [h] at hx
  rw [h1]
  rfl

/-- setdefault on an absent key inserts the default. -/
theorem dsetdefault_of_none (m : Meta) (k : String) (v : Val)
    (h : dget m k = none) : dsetdefault m k v = (v, dset m k v) := by
  rw [dsetdefault, h]

/-- setdefault on a present key is a pure read. -/
theorem dsetdefault_of_some (m : Meta) (k : String) (v w : Val)
    (h : dget m k = some w) : dsetdefault m k v = (w, m) := by
  rw [dsetdefault, h]

/-- Reading an untouched reference after a write. -/
theorem readRef_writeRef_ne (st : List Meta) (i j : ℕ) (m : Meta) (h : j ≠ i) :
    readRef (writeRef st i m) j = readRef st j := by
  simp [readRef, writeRef, List.getD, List.getElem?_set, Ne.symm h]

/-- Reading a written reference. -/
theorem readRef_writeRef_self (st : List Meta) (i : ℕ) (m : Meta)
    (h : i < st.length) : readRef (writeRef st i m) i = m := by
  simp [readRef, writeRef, List.getD, List.getElem?_set_self', h]

/-- Reading an existing reference after an allocation. -/
theorem readRef_append_lt (st : List Meta) (l : List Meta) (j : ℕ)
    (h : j < st.length) : readRef (st ++ l) j = readRef st j := by
  simp [readRef, List.getD, List.get?_eq_getElem?, List.getElem?_append, h]

/-- The fields of an enqueue outcome, spelled out: the protocol flag is the
truthiness of the caller's _plaintext entry, the persisted dictionary is the
caller's dictionary updated with the keywords, given a received_time default,
stamped with the schema version, stripped of volatile keys and extended with
the _parsemsg flag, the payload pickle follows the protocol choice of lines
91 to 96, and the file content is the payload pickle followed by the
metadata pickle. -/
theorem enqueuePure_fields (shaHex : List Tok → String) (reprV : Val → String)
    (md kws : Meta) (msg : Msg) (now : ℚ) :
    ((enqueuePure shaHex reprV md kws msg now).protocolZero
        = truthy (dget (dupdate md kws) "_plaintext"))
    ∧ (enqueuePure shaHex reprV md kws msg now).data
        = dset (stripVolatile (dset (dsetdefault (dupdate md kws) "received_time"
            (Val.num now)).2 "version" (Val.num QFILE_SCHEMA_VERSION))) "_parsemsg"
            (Val.bool (truthy (dget (dupdate md kws) "_plaintext")))
    ∧ (enqueuePure shaHex reprV md kws msg now).msgsave
        = (if truthy (dget (dupdate md kws) "_plaintext")
           then encPObj (PObj.str msg.text) else encPObj (PObj.msg msg))
    ∧ (enqueuePure shaHex reprV md kws msg now).content
        = (enqueuePure shaHex reprV md kws msg now).msgsave
            ++ encMeta (enqueuePure shaHex reprV md kws msg now).data := by
  cases hc : truthy (dget (dupdate md kws) "_plaintext") <;>
    simp [enqueuePure, enqueueImp, readRef, writeRef, SAVE_MSGS_AS_PICKLES, hc]

/-- Decoding the content an enqueue wrote restores the Message object and
the persisted metadata dictionary, under either payload encoding. -/
theorem dequeueData_enqueuePure (shaHex : List Tok → String) (reprV : Val → String)
    (md kws : Meta) (msg : Msg) (now : ℚ) :
    dequeueData (enqueuePure shaHex reprV md kws msg now).content
      = Except.ok (PObj.msg msg, (enqueuePure shaHex reprV md kws msg now).data) := by
  obtain ⟨hpz, hdata, hsave, hcontent⟩ := enqueuePure_fields shaHex reprV md kws msg now
  have hflag : dget (enqueuePure shaHex reprV md kws msg now).data "_parsemsg"
      = some (Val.bool (truthy (dget (dupdate md kws) "_plaintext"))) := by
    rw [hdata]
    exact dget_dset_self _ _ _
  rw [hcontent, hsave]
  cases hc : truthy (dget (dupdate md kws) "_plaintext")
  · rw [hc] at hflag
    simp [hc, dequeueData, decPObj_encPObj, decMeta_encMeta_nil, hflag, truthy]
  · rw [hc] at hflag
    simp [hc, dequeueData, decPObj_encPObj, decMeta_encMeta_nil, hflag, truthy]

/-- What each key of the persisted dictionary looks up to, relative to the
caller-supplied metadata and keywords. -/
theorem enqueuePure_data_lookups (shaHex : List Tok → String) (reprV : Val → String)
    (md kws : Meta) (msg : Msg) (now : ℚ) :
    (∀ k : String, isVolatileKey k = false → k ≠ "version" → k ≠ "received_time" →
        dget (enqueuePure shaHex reprV md kws msg now).data k = dget (dupdate md kws) k)
    ∧ dget (enqueuePure shaHex reprV md kws msg now).data "version"
        = some (Val.num QFILE_SCHEMA_VERSION)
    ∧ (dget (dupdate md kws) "received_time" = none →
        dget (enqueuePure shaHex reprV md kws msg now).data "received_time"
          = some (Val.num now))
    ∧ (∀ v : Val, dget (dupdate md kws) "received_time" = some v →
        dget (enqueuePure shaHex reprV md kws msg now).data "received_time" = some v)
    ∧ (∀ k : String, isVolatileKey k = true → k ≠ "_parsemsg" →
        dget (enqueuePure shaHex reprV md kws msg now).data k = none)
    ∧ dget (enqueuePure shaHex reprV md kws msg now).data "_parsemsg"
        = some (Val.bool (enqueuePure shaHex reprV md kws msg now).protocolZero) := by
  obtain ⟨hpz, hdata, _, _⟩ := enqueuePure_fields shaHex reprV md kws msg now
  refine ⟨?_, ?_, ?_, ?_, ?_, ?_⟩
  · intro k hk hkv hkr
    have hkp : k ≠ "_parsemsg" := by
      intro he
      rw [he] at hk
      exact absurd hk (by decide)
    rw [hdata, dget_dset_ne _ _ _ _ hkp, dget_strip_not _ _ hk, dget_dset_ne _ _ _ _ hkv]
    cases hrt : dget (dupdate md kws) "received_time" with
    | none =>
        rw [dsetdefault_of_none _ _ _ hrt]
        exact dget_dset_ne _ _ _ _ hkr
    | some w =>
        rw [dsetdefault_of_some _ _ _ _ hrt]
  · rw [hdata, dget_dset_ne _ _ _ _ (by decide), dget_strip_not _ _ (by decide),
        dget_dset_self]
  · intro hrt
    rw [hdata, dget_dset_ne _ _ _ _ (by decide), dget_strip_not _ _ (by decide),
        dget_dset_ne _ _ _ _ (by decide), dsetdefault_of_none _ _ _ hrt]
    exact dget_dset_self _ _ _
  · intro v hrt
    rw [hdata, dget_dset_ne _ _ _ _ (by decide), dget_strip_not _ _ (by decide),
        dget_dset_ne _ _ _ _ (by decide), dsetdefault_of_some _ _ _ _ hrt]
    exact hrt
  · intro k hk hkp
    rw [hdata, dget_dset_ne _ _ _ _ hkp, dget_strip_underscore _ _ hk]
  · rw [hdata, dget_dset_self, hpz]

/-- C3 (amended): dequeue after enqueue returns the original Message object
under both encodings, the payload segment written first and the metadata
segment second; the returned metadata is the original metadata with the
private-prefixed keys stripped and the schema version added, but in
addition it carries the received_time default when the caller supplied none
and the private _parsemsg encoding flag, which the codec persists and does
not discard. -/
theorem enqueue_dequeue_roundtrip (shaHex : List Tok → String) (reprV : Val → String)
    (md kws : Meta) (msg : Msg) (now : ℚ) :
    dequeueData (enqueuePure shaHex reprV md kws msg now).content
      = Except.ok (PObj.msg msg, (enqueuePure shaHex reprV md kws msg now).data)
    ∧ (enqueuePure shaHex reprV md kws msg now).content
        = (enqueuePure shaHex reprV md kws msg now).msgsave
            ++ encMeta (enqueuePure shaHex reprV md kws msg now).data
    ∧ (∀ k : String, isVolatileKey k = false → k ≠ "version" → k ≠ "received_time" →
        dget (enqueuePure shaHex reprV md kws msg now).data k = dget (dupdate md kws) k)
    ∧ dget (enqueuePure shaHex reprV md kws msg now).data "version"
        = some (Val.num QFILE_SCHEMA_VERSION)
    ∧ (dget (dupdate md kws) "received_time" = none →
        dget (enqueuePure shaHex reprV md kws msg now).data "received_time"
          = some (Val.num now))
    ∧ (∀ v : Val, dget (dupdate md kws) "received_time" = some v →
        dget (enqueuePure shaHex reprV md kws msg now).data "received_time" = some v)
    ∧ (∀ k : String, isVolatileKey k = true → k ≠ "_parsemsg" →
        dget (enqueuePure shaHex reprV md kws msg now).data k = none)
    ∧ dget (enqueuePure shaHex reprV md kws msg now).data "_parsemsg"
        = some (Val.bool (enqueuePure shaHex reprV md kws msg now).protocolZero) := by
  obtain ⟨c1, c2, c3, c4, c5, c6⟩ := enqueuePure_data_lookups shaHex reprV md kws msg now
  exact ⟨dequeueData_enqueuePure shaHex reprV md kws msg now,
    (enqueuePure_fields shaHex reprV md kws msg now).2.2.2, c1, c2, c3, c4, c5, c6⟩

/-- Witness for C3: a concrete round trip through both codec layers. -/
theorem enqueue_dequeue_roundtrip_witness :
    dequeueData (enqueuePure (fun _ => "d") (fun _ => "2")
        [("listname", Val.str "x")] [] ⟨"hi"⟩ 2).content
      = Except.ok (PObj.msg ⟨"hi"⟩,
          (enqueuePure (fun _ => "d") (fun _ => "2")
            [("listname", Val.str "x")] [] ⟨"hi"⟩ 2).data)
    ∧ dget (enqueuePure (fun _ => "d") (fun _ => "2")
        [("listname", Val.str "x")] [] ⟨"hi"⟩ 2).data "listname" = some (Val.str "x")
    ∧ dget (enqueuePure (fun _ => "d") (fun _ => "2")
        [("listname", Val.str "x")] [] ⟨"hi"⟩ 2).data "version"
        = some (Val.num QFILE_SCHEMA_VERSION)
    ∧ dget (enqueuePure (fun _ => "d") (fun _ => "2")
        [("listname", Val.str "x")] [] ⟨"hi"⟩ 2).data "received_time"
        = some (Val.num 2) := by
  have t := enqueue_dequeue_roundtrip (fun _ => "d") (fun _ => "2")
    [("listname", Val.str "x")] [] ⟨"hi"⟩ 2
  refine ⟨t.1, ?_, t.2.2.2.1, t.2.2.2.2.1 (by decide)⟩
  have h := t.2.2.1 "listname" (by decide) (by decide) (by decide)
  rw [h]
  decide

/-- Counterexample for C3 as stated: at a concrete input the metadata that
dequeue returns is not the original metadata with private keys stripped and
the schema version added; it additionally holds the received_time default
and the private _parsemsg flag. -/
theorem enqueue_dequeue_roundtrip_counterexample :
    resultMeta (dequeueData (enqueuePure (fun _ => "d") (fun _ => "2")
        [] [] ⟨"hi"⟩ 2).content)
      = (enqueuePure (fun _ => "d") (fun _ => "2") [] [] ⟨"hi"⟩ 2).data
    ∧ (enqueuePure (fun _ => "d") (fun _ => "2") [] [] ⟨"hi"⟩ 2).data
      = [("received_time", Val.num 2), ("version", Val.num 3),
         ("_parsemsg", Val.bool false)]
    ∧ ([("received_time", Val.num 2), ("version", Val.num 3),
        ("_parsemsg", Val.bool false)] : Meta) ≠ claimedRoundtripMeta [] := by
  refine ⟨?_, rfl, by decide⟩
  rw [resultMeta, dequeueData_enqueuePure]
  rfl

/-- C6 (amended): every caller-supplied private-prefixed metadata key is
stripped before the item is written, but the codec then records its own
private-prefixed flag _parsemsg inside the persisted dictionary; dequeue
consumes the flag's value to choose the decoding yet does not discard the
entry, so the metadata dequeue returns still contains exactly that one
private-prefixed key. -/
theorem private_keys_stripped_parsemsg_persisted (shaHex : List Tok → String)
    (reprV : Val → String) (md kws : Meta) (msg : Msg) (now : ℚ) :
    (∀ k : String, isVolatileKey k = true → k ≠ "_parsemsg" →
        dget (enqueuePure shaHex reprV md kws msg now).data k = none)
    ∧ dget (enqueuePure shaHex reprV md kws msg now).data "_parsemsg"
        = some (Val.bool (enqueuePure shaHex reprV md kws msg now).protocolZero)
    ∧ resultMeta (dequeueData (enqueuePure shaHex reprV md kws msg now).content)
        = (enqueuePure shaHex reprV md kws msg now).data := by
  obtain ⟨_, _, _, _, c5, c6⟩ := enqueuePure_data_lookups shaHex reprV md kws msg now
  refine ⟨c5, c6, ?_⟩
  rw [resultMeta, dequeueData_enqueuePure shaHex reprV md kws msg now]
  rfl

/-- Witness for C6: a caller-supplied volatile key _foo is gone from the
persisted dictionary, while the _parsemsg flag is present and survives into
the dequeued metadata. -/
theorem private_keys_stripped_parsemsg_persisted_witness :
    dget (enqueuePure (fun _ => "d") (fun _ => "2")
        [("_foo", Val.num 1)] [] ⟨"m"⟩ 1).data "_foo" = none
    ∧ dget (enqueuePure (fun _ => "d") (fun _ => "2")
        [("_foo", Val.num 1)] [] ⟨"m"⟩ 1).data "_parsemsg"
        = some (Val.bool (enqueuePure (fun _ => "d") (fun _ => "2")
            [("_foo", Val.num 1)] [] ⟨"m"⟩ 1).protocolZero)
    ∧ resultMeta (dequeueData (enqueuePure (fun _ => "d") (fun _ => "2")
        [("_foo", Val.num 1)] [] ⟨"m"⟩ 1).content)
        = (enqueuePure (fun _ => "d") (fun _ => "2")
            [("_foo", Val.num 1)] [] ⟨"m"⟩ 1).data := by
  have t := private_keys_stripped_parsemsg_persisted (fun _ => "d") (fun _ => "2")
    [("_foo", Val.num 1)] [] ⟨"m"⟩ 1
  exact ⟨t.1 "_foo" (by decide) (by decide), t.2.1, t.2.2⟩

/-- Counterexample for C6 as stated: at a concrete input the persisted
dictionary holds the private-prefixed key _parsemsg, and the metadata
returned by dequeue still contains a private-prefixed key. -/
theorem private_keys_counterexample :
    dget (enqueuePure (fun _ => "d") (fun _ => "2") [] [] ⟨"hi"⟩ 2).data "_parsemsg"
      = some (Val.bool false)
    ∧ (resultMeta (dequeueData (enqueuePure (fun _ => "d") (fun _ => "2")
        [] [] ⟨"hi"⟩ 2).content)).any (fun kv => isVolatileKey kv.1) = true := by
  exact ⟨rfl, rfl⟩

/-- C10: enqueue never mutates the caller's metadata dictionary: the store
entry the caller's reference names is the same after the call, because the
copy on line 86 allocates a fresh dictionary and every subsequent update
hits the copy. -/
theorem enqueue_leaves_caller_dict (shaHex : List Tok → String) (reprV : Val → String)
    (st : List Meta) (mdRef : ℕ) (kws : Meta) (msg : Msg) (now : ℚ)
    (h : mdRef < st.length) :
    readRef (enqueueImp shaHex reprV st mdRef kws msg now).store mdRef
      = readRef st mdRef := by
  have hne : mdRef ≠ st.length := by omega
  simp only [enqueueImp]
  rw [readRef_writeRef_ne _ _ _ _ hne, readRef_writeRef_ne _ _ _ _ hne,
      readRef_writeRef_ne _ _ _ _ hne, readRef_writeRef_ne _ _ _ _ hne,
      readRef_writeRef_ne _ _ _ _ hne, readRef_append_lt _ _ _ h]

/-- Witness for C10: a concrete caller dictionary is untouched by enqueue. -/
theorem enqueue_leaves_caller_dict_witness :
    0 < ([[("a", Val.num 1)]] : List Meta).length
    ∧ readRef (enqueueImp (fun _ => "d") (fun _ => "2")
        [[("a", Val.num 1)]] 0 [] ⟨"m"⟩ 1).store 0
      = readRef [[("a", Val.num 1)]] 0 :=
  ⟨by decide,
   enqueue_leaves_caller_dict (fun _ => "d") (fun _ => "2")
     [[("a", Val.num 1)]] 0 [] ⟨"m"⟩ 1 (by decide)⟩

/-- The tie-break increment is positive. -/
theorem DELTA_pos : (0 : ℚ) < DELTA := by norm_num [DELTA]

/-- The times dictionary built from a listing of four entries in which the
second and third share a time: the third entry's key is bumped by DELTA. -/
theorem fold_insert_four (t1 t2 t3 : ℚ) (a b c d : String)
    (h21 : t2 ≠ t1) (hd1 : t2 + DELTA ≠ t1) (hd2 : t2 + DELTA ≠ t2)
    (h31 : t3 ≠ t1) (h32 : t3 ≠ t2) (h3d : t3 ≠ t2 + DELTA) :
    List.foldl (fun ts kf => timesInsert ts kf.1 kf.2) []
        [(t1, a), (t2, b), (t2, c), (t3, d)]
      = [(t1, a), (t2, b), (t2 + DELTA, c), (t3, d)] := by
  simp [timesInsert, bumpKey, h21, hd1, hd2, h31, h32, h3d]

/-- C5 (amended): with received times t1 < t2 < t3, two items sharing t2 and
the third time beyond the bumped key, that is t2 + DELTA < t3, the ordering
stage of files() lists the t1 item first, then both t2 items in listing
order, then the t3 item, each exactly once; when instead t3 lies within
DELTA of t2 the bumped key overtakes t3 and this ordering fails. -/
theorem files_fifo_order (t1 t2 t3 : ℚ) (a b c d : String)
    (h12 : t1 < t2) (h23 : t2 < t3) (hgap : t2 + DELTA < t3) :
    orderStage [(t1, a), (t2, b), (t2, c), (t3, d)] = [a, b, c, d] := by
  have hdpos := DELTA_pos
  have h21 : t2 ≠ t1 := ne_of_gt h12
  have h1d : t1 < t2 + DELTA := by linarith
  have hd1 : t2 + DELTA ≠ t1 := ne_of_gt h1d
  have hd2 : t2 + DELTA ≠ t2 := by
    intro he
    have h0 : (0 : ℚ) = DELTA := by linarith [congrArg (fun x => x - t2) he]
    exact absurd h0.symm (ne_of_gt hdpos)
  have h31 : t3 ≠ t1 := ne_of_gt (h12.trans h23)
  have h32 : t3 ≠ t2 := ne_of_gt h23
  have h3d : t3 ≠ t2 + DELTA := ne_of_gt hgap
  rw [orderStage, fold_insert_four t1 t2 t3 a b c d h21 hd1 hd2 h31 h32 h3d,
      listTail]
  have hsort : sortQ ([(t1, a), (t2, b), (t2 + DELTA, c), (t3, d)].map Prod.fst)
      = [t1, t2, t2 + DELTA, t3] := by
    simp [sortQ, insertSorted, le_of_lt h12, le_of_lt h23, le_of_lt hgap,
      le_of_lt hdpos, le_of_lt h1d,
      (le_add_of_nonneg_right (le_of_lt hdpos) : t2 ≤ t2 + DELTA)]
  rw [hsort]
  have b11 : (t1 == t1) = true := beq_self_eq_true t1
  have b21 : (t1 == t2) = false := beq_eq_false_iff_ne.mpr (ne_of_lt h12)
  have b2d : (t1 == t2 + DELTA) = false := beq_eq_false_iff_ne.mpr (ne_of_lt h1d)
  have b22 : (t2 == t2) = true := beq_self_eq_true t2
  have bd2 : (t2 == t2 + DELTA) = false := beq_eq_false_iff_ne.mpr (Ne.symm hd2)
  have bdd : (t2 + DELTA == t2 + DELTA) = true := beq_self_eq_true _
  have b13 : (t1 == t3) = false := beq_eq_false_iff_ne.mpr (Ne.symm h31)
  have b23 : (t2 == t3) = false := beq_eq_false_iff_ne.mpr (Ne.symm h32)
  have bd3 : (t2 + DELTA == t3) = false := beq_eq_false_iff_ne.mpr (Ne.symm h3d)
  have b33 : (t3 == t3) = true := beq_self_eq_true t3
  simp [tlookup, List.find?, b11, b21, b2d, b22, bd2, bdd, b13, b23, bd3, b33]

/-- Witness for C5: the listing 0, 1, 1, 2 comes out as a, b, c, d. -/
theorem files_fifo_order_witness :
    (0 : ℚ) < 1 ∧ (1 : ℚ) < 2 ∧ (1 : ℚ) + DELTA < 2
    ∧ orderStage [((0 : ℚ), "a"), (1, "b"), (1, "c"), (2, "d")] = ["a", "b", "c", "d"] :=
  ⟨by norm_num, by norm_num, by norm_num [DELTA],
   files_fifo_order 0 1 2 "a" "b" "c" "d" (by norm_num) (by norm_num)
     (by norm_num [DELTA])⟩

/-- When the third time lies strictly inside the DELTA window after the
duplicated time, the bumped key overtakes it and the t3 item is listed
before the second t2 item. -/
theorem files_fifo_order_tight (t1 t2 t3 : ℚ) (a b c d : String)
    (h12 : t1 < t2) (h23 : t2 < t3) (htight : t3 < t2 + DELTA) :
    orderStage [(t1, a), (t2, b), (t2, c), (t3, d)] = [a, b, d, c] := by
  have hdpos := DELTA_pos
  have h21 : t2 ≠ t1 := ne_of_gt h12
  have h1d : t1 < t2 + DELTA := by linarith
  have hd1 : t2 + DELTA ≠ t1 := ne_of_gt h1d
  have hd2 : t2 + DELTA ≠ t2 := by
    intro he
    have h0 : (0 : ℚ) = DELTA := by linarith [congrArg (fun x => x - t2) he]
    exact absurd h0.symm (ne_of_gt hdpos)
  have h31 : t3 ≠ t1 := ne_of_gt (h12.trans h23)
  have h32 : t3 ≠ t2 := ne_of_gt h23
  have h3d : t3 ≠ t2 + DELTA := ne_of_lt htight
  rw [orderStage, fold_insert_four t1 t2 t3 a b c d h21 hd1 hd2 h31 h32 h3d,
      listTail]
  have hsort : sortQ ([(t1, a), (t2, b), (t2 + DELTA, c), (t3, d)].map Prod.fst)
      = [t1, t2, t3, t2 + DELTA] := by
    simp [sortQ, insertSorted, le_of_lt h12, le_of_lt h23,
      (not_le.mpr htight : ¬ (t2 + DELTA ≤ t3)), le_of_lt h1d,
      (le_add_of_nonneg_right (le_of_lt hdpos) : t2 ≤ t2 + DELTA)]
  rw [hsort]
  have b11 : (t1 == t1) = true := beq_self_eq_true t1
  have b21 : (t1 == t2) = false := beq_eq_false_iff_ne.mpr (ne_of_lt h12)
  have b2d : (t1 == t2 + DELTA) = false := beq_eq_false_iff_ne.mpr (ne_of_lt h1d)
  have b22 : (t2 == t2) = true := beq_self_eq_true t2
  have bd2 : (t2 == t2 + DELTA) = false := beq_eq_false_iff_ne.mpr (Ne.symm hd2)
  have bdd : (t2 + DELTA == t2 + DELTA) = true := beq_self_eq_true _
  have b13 : (t1 == t3) = false := beq_eq_false_iff_ne.mpr (Ne.symm h31)
  have b23 : (t2 == t3) = false := beq_eq_false_iff_ne.mpr (Ne.symm h32)
  have bd3 : (t2 + DELTA == t3) = false := beq_eq_false_iff_ne.mpr (Ne.symm h3d)
  have b33 : (t3 == t3) = true := beq_self_eq_true t3
  simp [tlookup, List.find?, b11, b21, b2d, b22, bd2, bdd, b13, b23, bd3, b33]

/-- Counterexample for C5 as stated: received times 0 < 1 < 20001/20000 with
two items at time 1 satisfy the claim's premise, yet the listing puts the
time-20001/20000 item d before the second time-1 item c, because the bumped
key 1 + DELTA overtakes 20001/20000; so it is false that both same-time
items precede the later item. -/
theorem files_fifo_counterexample :
    (0 : ℚ) < 1 ∧ (1 : ℚ) < 20001 / 20000
    ∧ orderStage [((0 : ℚ), "a"), (1, "b"), (1, "c"), (20001 / 20000, "d")]
        = ["a", "b", "d", "c"]
    ∧ List.indexOf "d" ["a", "b", "d", "c"] < List.indexOf "c" ["a", "b", "d", "c"] :=
  ⟨by norm_num, by norm_num,
   files_fifo_order_tight 0 1 (20001 / 20000) "a" "b" "c" "d" (by norm_num)
     (by norm_num) (by norm_num [DELTA]),
   by decide⟩

/-- The listing tail of a one-entry times dictionary. -/
theorem listTail_single (k : ℚ) (fb : String) : listTail [(k, fb)] = [fb] := by
  simp [listTail, sortQ, insertSorted, tlookup, List.find?, beq_self_eq_true]

/-- C9 (amended): files() silently skips every entry whose extension is not
the target one, temporary files in particular, and a well-formed matching
entry is listed; but an entry carrying the target extension whose base does
not parse as a time, a plus sign and a digest makes files() raise instead of
being skipped. -/
theorem files_tolerates_only_other_extensions :
    (∀ f : String, ∀ b : Option (ℕ × ℤ), ∀ ts : List (ℚ × String),
        (splitext f).2 ≠ ".pck" → filesStep ".pck" b (Except.ok ts) f = Except.ok ts)
    ∧ filesE ["1.0+abc.pck.tmp"] ".pck" none = Except.ok []
    ∧ filesE ["1.0+ab.pck"] ".pck" none = Except.ok ["1.0+ab"] := by
  refine ⟨?_, rfl, ?_⟩
  · intro f b ts h
    have hb : ((splitext f).2 != ".pck") = true := bne_iff_ne.mpr h
    simp [filesStep, hb]
  · cases hp : parseFloatQ "1.0" with
    | none =>
        have hs : (parseFloatQ "1.0").isSome = true := rfl
        rw [hp] at hs
        exact Bool.noConfusion hs
    | some k =>
        have hsp : splitext "1.0+ab.pck" = ("1.0+ab", ".pck") := rfl
        have hpl : splitPlus "1.0+ab" = ["1.0", "ab"] := rfl
        simp [filesE, filesStep, hsp, hpl, hp, timesInsert, bumpKey, Except.map,
          listTail_single]

/-- Witness for C9: a temporary file and a backup file are skipped by a
pending-extension listing. -/
theorem files_tolerates_only_other_extensions_witness :
    filesStep ".pck" none (Except.ok []) "1.0+zz.pck.tmp" = Except.ok []
    ∧ filesStep ".pck" none (Except.ok []) "1.0+zz.bak" = Except.ok []
    ∧ filesE ["1.0+abc.pck.tmp"] ".pck" none = Except.ok []
    ∧ filesE ["1.0+ab.pck"] ".pck" none = Except.ok ["1.0+ab"] := by
  have t := files_tolerates_only_other_extensions
  exact ⟨t.1 "1.0+zz.pck.tmp" none [] (by decide), t.1 "1.0+zz.bak" none [] (by decide),
    t.2.1, t.2.2⟩

/-- Counterexample for C9 as stated: a directory entry with the matching
extension but no plus sign in its base, and one whose time part is not
numeric, each make files() fail with an error rather than being silently
skipped. -/
theorem files_malformed_counterexample :
    filesE ["garbage.pck"] ".pck" none = Except.error ()
    ∧ filesE ["abc+ff.pck"] ".pck" none = Except.error () :=
  ⟨rfl, rfl⟩
